import Mathlib

/-!
Verification of `ask_for.h`, a single-header C++ utility that prompts on the
console, reads one line, parses it into typed slots via formatted stream
extraction, validates the values with a caller-supplied predicate and retries
until an attempt is accepted.

The embedding models an iostream as a buffer of remaining characters together
with the three state flags (failbit, eofbit, badbit).  Formatted extraction
(`operator>>`) is modelled for `int`, `std::string`, `std::array<int, N>`
(source lines 34-46) and `std::vector<int>` (source lines 48-65), following the
C++ `istream::sentry` / `num_get` semantics: a sentry on a non-good stream sets
failbit and skips the extraction; otherwise leading whitespace is skipped, and
hitting the end of the buffer sets eofbit.  `get_line_fill` (lines 76-119),
`condition_errors` (lines 123-127), `ask_for_impl` (lines 158-187) and the
retry loop of `ask_for` (lines 200-242) are translated statement by statement.
Console output is modelled as a trace of events, each carrying exactly the text
the C++ writes (`evText`) and the channel it is written to (`evChannelErr`).
-/

/-- An iostream: the characters not yet consumed plus the state flags. -/
structure Ios where
  buf : List Char
  fail : Bool
  eof : Bool
  bad : Bool
deriving DecidableEq, Repr

/-- Mirrors `std::ios::good()`: no flag is set. -/
def good (s : Ios) : Bool := !s.fail && !s.eof && !s.bad

/-- Mirrors `std::cin.clear()`: reset all state flags, keep the buffer. -/
def clearIos (s : Ios) : Ios := { s with fail := false, eof := false, bad := false }

/-- Whitespace for the default C locale as used by `operator>>` and `isspace`. -/
def isWs (c : Char) : Bool := c = ' ' || c = '\t' || c = '\n' || c = '\r'

/-- Skip leading whitespace, as the skipws sentry does. -/
def dropWs (cs : List Char) : List Char := cs.dropWhile isWs

/-- The `istream::sentry` for formatted extraction: on a non-good stream set
failbit and report failure; otherwise skip whitespace, and if that exhausts the
buffer set eofbit and failbit. -/
def sentry (s : Ios) : Ios × Bool :=
  if good s then
    match dropWs s.buf with
    | [] => ({ s with buf := [], eof := true, fail := true }, false)
    | c :: cs => ({ s with buf := c :: cs }, true)
  else
    ({ s with fail := true }, false)

/-- Decimal digits to a natural number. -/
def digitsToNat (ds : List Char) : Nat :=
  ds.foldl (fun acc d => acc * 10 + (d.toNat - 48)) 0

/-- Formatted `int` extraction (`is >> t` with `num_get`): after a successful
sentry, consume an optional sign and then the maximal digit run; no digit means
failbit (the sign character, if any, is still consumed); stopping at the end of
the buffer sets eofbit. -/
def extractInt (s : Ios) : Ios × Int :=
  let p := sentry s
  if p.2 then
    let s1 := p.1
    let sgn : Int := if s1.buf.head? = some '-' then -1 else 1
    let body : List Char :=
      if s1.buf.head? = some '-' ∨ s1.buf.head? = some '+' then s1.buf.tail else s1.buf
    let ds := body.takeWhile Char.isDigit
    let rest := body.dropWhile Char.isDigit
    ({ s1 with buf := rest, fail := s1.fail || ds.isEmpty, eof := s1.eof || rest.isEmpty },
      if ds.isEmpty then 0 else sgn * (digitsToNat ds : Int))
  else (p.1, 0)

/-- Formatted `std::string` extraction: after a successful sentry, consume the
maximal run of non-whitespace characters; stopping at the end of the buffer
sets eofbit. -/
def extractString (s : Ios) : Ios × List Char :=
  let p := sentry s
  if p.2 then
    let s1 := p.1
    let tok := s1.buf.takeWhile (fun c => !isWs c)
    let rest := s1.buf.dropWhile (fun c => !isWs c)
    ({ s1 with buf := rest, eof := s1.eof || rest.isEmpty }, tok)
  else (p.1, [])

/-- Models `operator>>(std::istream, std::array<int, N>)` (source lines 34-46):
extract into each of the `N` positions in order; once a flag is set the
sentries turn the later extractions into no-ops. -/
def extractArray : Nat → Ios → Ios × List Int
  | 0, s => (s, [])
  | n + 1, s =>
    let p := extractInt s
    let q := extractArray n p.1
    (q.1, p.2 :: q.2)

/-- The loop body of `operator>>(std::istream, std::vector<int>)` (source
lines 51-56): extract elements and append until `is.fail()` holds.  The fuel
argument bounds the iteration count; `buf.length + 1` always suffices because
each successful extraction consumes at least one character. -/
def extractVectorAux : Nat → Ios → List Int → Ios × List Int
  | 0, s, acc => (s, acc.reverse)
  | fuel + 1, s, acc =>
    let p := extractInt s
    if p.1.fail || p.1.bad then (p.1, acc.reverse)
    else extractVectorAux fuel p.1 (p.2 :: acc)

/-- Models `operator>>(std::istream, std::vector<int>)` (source lines 48-65): run the
extraction loop, then `is.clear(is.rdstate() ^ failbit)` — toggle failbit when
`is.fail()` (failbit or badbit) holds. -/
def extractVector (s : Ios) : Ios × List Int :=
  let p := extractVectorAux (s.buf.length + 1) s []
  if p.1.fail || p.1.bad then ({ p.1 with fail := !p.1.fail }, p.2)
  else p

/-- The slot types the claims exercise: `int`, `std::string`,
`std::array<int, N>` and `std::vector<int>`. -/
inductive Ty
  | int
  | str
  | arr (n : Nat)
  | vec
deriving DecidableEq, Repr

/-- A parsed slot value. -/
inductive Val
  | int (i : Int)
  | str (s : List Char)
  | arr (xs : List Int)
  | vec (xs : List Int)
deriving DecidableEq, Repr

/-- The value a default-initialised slot holds before extraction. -/
def defaultVal : Ty → Val
  | .int => .int 0
  | .str => .str []
  | .arr n => .arr (List.replicate n 0)
  | .vec => .vec []

/-- Dispatch `ss >> t` on the slot type. -/
def extractSlot (ty : Ty) (s : Ios) : Ios × Val :=
  match ty with
  | .int => let p := extractInt s; (p.1, .int p.2)
  | .str => let p := extractString s; (p.1, .str p.2)
  | .arr n => let p := extractArray n s; (p.1, .arr p.2)
  | .vec => let p := extractVector s; (p.1, .vec p.2)

/-- The pack expansion `(ss >> t, 0)...` of line 106: extract into each slot
in order from the shared string stream. -/
def extractSlots : List Ty → Ios → Ios × List Val
  | [], s => (s, [])
  | ty :: tys, s =>
    let p := extractSlot ty s
    let q := extractSlots tys p.1
    (q.1, p.2 :: q.2)

/-- Models `std::getline(is, s)`: on a non-good stream set failbit and extract
nothing.  Otherwise read up to the first newline (consumed, not stored); if the
buffer ends before a newline set eofbit, and if additionally no character was
extracted set failbit as well. -/
def breakNewline : List Char → List Char × Option (List Char)
  | [] => ([], none)
  | c :: cs =>
    if c = '\n' then ([], some cs)
    else
      let p := breakNewline cs
      (c :: p.1, p.2)

/-- Runs `std::getline` on the modelled stream. -/
def getlineFn (c : Ios) : Ios × List Char :=
  if good c then
    match breakNewline c.buf with
    | (l, some rest) => ({ c with buf := rest }, l)
    | (l, none) =>
      if l = [] then ({ c with buf := [], eof := true, fail := true }, [])
      else ({ c with buf := [], eof := true }, l)
  else
    ({ c with fail := true }, [])

/-- Models `get_line_fill` (source lines 76-119).  `Except.error ()` is the thrown
`Eof_exception`.  On the early `return is` the slots keep their
default-initialised values.  The `in_avail() == 0` fix-up of lines 112-114 sets
eofbit when the string stream's buffer is exhausted, and line 116 transfers the
string stream's state onto `cin` with `setstate` (a bitwise or). -/
def get_line_fill (tys : List Ty) (cin : Ios) : Except Unit (Ios × List Val) :=
  let g := getlineFn cin
  let c1 := g.1
  let s := g.2
  if c1.eof then .error ()
  else if !good c1 then .ok (c1, tys.map defaultVal)
  else if tys = [Ty.str] ∧ s = [] then
    .ok ({ c1 with eof := true }, [Val.str []])
  else
    let q := extractSlots tys { buf := s, fail := false, eof := false, bad := false }
    let ss := q.1
    let ss2 := if ss.buf = [] then { ss with eof := true } else ss
    let c2 : Ios := { buf := c1.buf, fail := c1.fail || ss2.fail,
                      eof := c1.eof || ss2.eof, bad := c1.bad || ss2.bad }
    .ok (c2, q.2)

/-- Models `condition_errors` (source lines 123-127): the attempt has a condition
error on `t` when the predicate rejects it. -/
def condition_errors (t : Val) (f : Val → Bool) : Bool := !f t

/-- A console write: the constructor records which branch wrote it, `evText`
gives the exact text and `evChannelErr` the channel. -/
inductive Ev
  | prompt (m : String)
  | parseMsg (m : String)
  | excess
  | condMsg (m : String)
  | badDiag
deriving DecidableEq, Repr

/-- The exact text each event writes. -/
def evText : Ev → String
  | .prompt m => m
  | .parseMsg m => m ++ "\n"
  | .excess => "Error: excess input\n"
  | .condMsg m => m ++ "\n"
  | .badDiag => "Cannot read from stream\n"

/-- Whether the event is written to `std::cerr` rather than `std::cout`. -/
def evChannelErr : Ev → Bool
  | .badDiag => true
  | _ => false

/-- Result of one `ask_for_impl` attempt: either the `Eof_exception`
propagates, or the attempt finishes with a verdict, the stream state after the
final `std::cin.clear()`, the slot values and the trace of console writes. -/
inductive ImplOutcome
  | thrown (trace : List Ev)
  | done (accepted : Bool) (c : Ios) (vals : List Val) (trace : List Ev)
deriving DecidableEq, Repr

/-- Models `ask_for_impl` (source lines 158-187), translated branch by branch.  Note
that line 175 expands to `errors = condition_errors(t, condition)` for each
slot in turn, so `errors` ends up holding the verdict of the last slot only;
the fold below reproduces that reassignment exactly. -/
def ask_for_impl (message : String) (condition : Val → Bool)
    (condition_error parse_error : String) (tys : List Ty) (cin : Ios) : ImplOutcome :=
  match get_line_fill tys cin with
  | .error () => .thrown [.prompt message]
  | .ok (c, vals) =>
    if c.bad then
      .done false (clearIos c) vals [.prompt message, .badDiag]
    else if c.fail then
      .done false (clearIos c) vals [.prompt message, .parseMsg parse_error]
    else if !c.eof then
      .done false (clearIos c) vals [.prompt message, .excess]
    else
      let errors := vals.foldl (fun _ v => condition_errors v condition) true
      if errors then
        .done false (clearIos c) vals [.prompt message, .condMsg condition_error]
      else
        .done true (clearIos c) vals [.prompt message]

/-- Result of the `while (true)` retry loop, run with fuel: a returned value,
the propagating `Eof_exception`, or fuel exhausted mid-loop. -/
inductive Outcome
  | value (vals : List Val) (c : Ios) (trace : List Ev)
  | thrown (trace : List Ev)
  | spent (c : Ios) (trace : List Ev)
deriving DecidableEq, Repr

/-- The retry loop of `ask_for` (source lines 200-242): call `ask_for_impl`
until it returns `true`, accumulating the console trace.  The C++ loop is
unbounded; fuel only truncates the model, it adds no retry limit. -/
def ask_for : String → (Val → Bool) → String → String → List Ty →
    Nat → Ios → List Ev → Outcome
  | _, _, _, _, _, 0, c, tr => .spent c tr
  | msg, cond, conderr, perr, tys, fuel + 1, c, tr =>
    match ask_for_impl msg cond conderr perr tys c with
    | .thrown tr2 => .thrown (tr ++ tr2)
    | .done true c2 vals tr2 => .value vals c2 (tr ++ tr2)
    | .done false c2 _ tr2 => ask_for msg cond conderr perr tys fuel c2 (tr ++ tr2)

/-- Tokens of a line: maximal runs of non-whitespace characters. -/
def tokensAux : Nat → List Char → List (List Char)
  | 0, _ => []
  | fuel + 1, cs =>
    match dropWs cs with
    | [] => []
    | c :: rest =>
      (c :: rest).takeWhile (fun x => !isWs x) ::
        tokensAux fuel ((c :: rest).dropWhile (fun x => !isWs x))

/-- Tokens of a line (the fuel `length + 1` always suffices). -/
def tokens (cs : List Char) : List (List Char) := tokensAux (cs.length + 1) cs

/-- The always-true predicate, the default condition of `ask_for`. -/
def trueCond : Val → Bool := fun _ => true

/-- A predicate demanding that integer slots be positive (other slots pass). -/
def positiveCond : Val → Bool
  | .int i => decide (0 < i)
  | _ => true

/-- A fresh good stream holding the given input. -/
def mkIos (s : String) : Ios := { buf := s.toList, fail := false, eof := false, bad := false }

/-- Join tokens with single spaces, the canonical line holding those tokens. -/
def joinToks : List (List Char) → List Char
  | [] => []
  | [t] => t
  | t :: ts => t ++ ' ' :: joinToks ts

/-- The tail of a join: empty, or a separating space followed by the join. -/
def sepJoin : List (List Char) → List Char
  | [] => []
  | t :: ts => ' ' :: joinToks (t :: ts)

/-- A token that parses as a (non-negative) `int`: a non-empty digit run. -/
def intToken (t : List Char) : Prop := t ≠ [] ∧ ∀ c ∈ t, c.isDigit = true

/-! ## Theorems -/

/-- C1: the claim says a multi-slot attempt is accepted only if the predicate
passes on every slot, but line 175 reassigns `errors` per slot, so only the
last slot's verdict survives.  On the line `"-5 3"` with two `int` slots and a
positivity predicate the code accepts and returns `(-5, 3)` even though the
first slot fails the predicate. -/
theorem last_slot_only_condition_check :
    ask_for_impl "p" positiveCond "c" "e" [Ty.int, Ty.int] (mkIos "-5 3\n") =
      .done true { buf := [], fail := false, eof := false, bad := false }
        [Val.int (-5), Val.int 3] [Ev.prompt "p"] ∧
    positiveCond (Val.int (-5)) = false := by
  exact ⟨rfl, rfl⟩

/-- C2 counterexample: for a `vector<int>` slot the line `"1 2 3 abc"` does
not make the attempt succeed: the model evaluates to a rejected attempt
(`accepted = false`) with the excess-input message, because the unparsed token
`abc` is left unconsumed, so the eofbit is never set. -/
theorem vec_trailing_token_attempt_rejected :
    ask_for_impl "p" trueCond "c" "e" [Ty.vec] (mkIos "1 2 3 abc\n") =
      .done false { buf := [], fail := false, eof := false, bad := false }
        [Val.vec [1, 2, 3]] [Ev.prompt "p", Ev.excess] := by
  exact rfl

/-- C2 amended: the trailing unparseable token ends the sequence without a
parse failure — the vector extraction returns the prefix `[1, 2, 3]` with the
failbit cleared and the token `abc` unconsumed — but the attempt is then
rejected with the excess-input message, not accepted; the same request is
accepted with `[1, 2, 3]` when every token parses, as on `"1 2 3"`. -/
theorem vec_trailing_token_ends_sequence_then_excess :
    extractVector (mkIos "1 2 3 abc") =
      ({ buf := "abc".toList, fail := false, eof := false, bad := false }, [1, 2, 3]) ∧
    ask_for_impl "p" trueCond "c" "e" [Ty.vec] (mkIos "1 2 3 abc\n") =
      .done false { buf := [], fail := false, eof := false, bad := false }
        [Val.vec [1, 2, 3]] [Ev.prompt "p", Ev.excess] ∧
    ask_for_impl "p" trueCond "c" "e" [Ty.vec] (mkIos "1 2 3\n") =
      .done true { buf := [], fail := false, eof := false, bad := false }
        [Val.vec [1, 2, 3]] [Ev.prompt "p"] := by
  exact ⟨rfl, rfl, rfl⟩

/-- C3 counterexample: with a single `int` slot, the line `"5 "` leaves only a
whitespace character unconsumed, yet the attempt is rejected with the
excess-input message: the check uses the eofbit, which trailing whitespace
prevents, not a trailing-token test. -/
theorem whitespace_remainder_still_excess :
    ask_for_impl "p" trueCond "c" "e" [Ty.int] (mkIos "5 \n") =
      .done false { buf := [], fail := false, eof := false, bad := false }
        [Val.int 5] [Ev.prompt "p", Ev.excess] ∧
    (extractSlots [Ty.int] (mkIos "5 ")).1.buf = [' '] ∧
    ([' '].all isWs) = true := by
  exact ⟨rfl, rfl, rfl⟩

/-- C4 counterexample: on the input `"5"` — a non-empty final line with no
terminator — `get_line_fill` throws the `Eof_exception` even though characters
of the line were available, because `getline` sets the eofbit whenever it stops
at end-of-input, newline or not. -/
theorem unterminated_line_still_aborts :
    get_line_fill [Ty.int] (mkIos "5") = .error () ∧ (mkIos "5").buf ≠ [] := by
  exact ⟨rfl, by decide⟩

/-- Helper: splitting at the first newline of a terminated line. -/
theorem breakNewline_append (l rest : List Char) (h : '\n' ∉ l) :
    breakNewline (l ++ '\n' :: rest) = (l, some rest) := by
  induction l with
  | nil => simp [breakNewline]
  | cons c cs ih =>
    simp only [List.mem_cons, not_or] at h
    have hc : ¬ c = '\n' := fun hh => h.1 hh.symm
    simp [breakNewline, hc, ih h.2]

/-- Helper: `getline` finds no newline exactly when the buffer has none. -/
theorem breakNewline_snd_none_iff (l : List Char) :
    (breakNewline l).2 = none ↔ '\n' ∉ l := by
  induction l with
  | nil => simp [breakNewline]
  | cons c cs ih =>
    by_cases hc : c = '\n'
    · subst hc
      simp [breakNewline]
    · have hc2 : ¬ '\n' = c := fun hh => hc hh.symm
      simp [breakNewline, hc, ih, hc2]

/-- Helper: `getline` on a good stream holding a terminated line yields the
line's text without the terminator and leaves the stream good. -/
theorem getlineFn_good (l rest : List Char) (h : '\n' ∉ l) :
    getlineFn { buf := l ++ '\n' :: rest, fail := false, eof := false, bad := false } =
      ({ buf := rest, fail := false, eof := false, bad := false }, l) := by
  simp [getlineFn, good, breakNewline_append l rest h]

/-- C5: a single plain-string slot given an empty line is a successful fill
with the slot set to the empty string — neither a parse failure nor excess
input — so under a predicate accepting the empty string the attempt is
accepted and the loop returns the empty string right there. -/
theorem single_string_empty_line_success
    (cond : Val → Bool) (rest : List Char) (msg conderr perr : String)
    (fuel : Nat) (tr : List Ev) (h : cond (Val.str []) = true) :
    ask_for_impl msg cond conderr perr [Ty.str]
        { buf := '\n' :: rest, fail := false, eof := false, bad := false } =
      .done true { buf := rest, fail := false, eof := false, bad := false }
        [Val.str []] [Ev.prompt msg] ∧
    ask_for msg cond conderr perr [Ty.str] (fuel + 1)
        { buf := '\n' :: rest, fail := false, eof := false, bad := false } tr =
      .value [Val.str []] { buf := rest, fail := false, eof := false, bad := false }
        (tr ++ [Ev.prompt msg]) := by
  have hg : getlineFn { buf := '\n' :: rest, fail := false, eof := false, bad := false } =
      ({ buf := rest, fail := false, eof := false, bad := false }, []) := by
    have := getlineFn_good [] rest (by simp)
    simpa using this
  have h1 : ask_for_impl msg cond conderr perr [Ty.str]
      { buf := '\n' :: rest, fail := false, eof := false, bad := false } =
      .done true { buf := rest, fail := false, eof := false, bad := false }
        [Val.str []] [Ev.prompt msg] := by
    simp [ask_for_impl, get_line_fill, hg, good, clearIos, condition_errors, h]
  exact ⟨h1, by simp [ask_for, h1]⟩

/-- C5 witness: with the always-true predicate and the input consisting of a
single empty line, the attempt is accepted with the empty string. -/
theorem single_string_empty_line_success_witness :
    trueCond (Val.str []) = true ∧
    (ask_for_impl "p" trueCond "c" "e" [Ty.str]
        { buf := '\n' :: [], fail := false, eof := false, bad := false } =
      .done true { buf := [], fail := false, eof := false, bad := false }
        [Val.str []] [Ev.prompt "p"] ∧
    ask_for "p" trueCond "c" "e" [Ty.str] 1
        { buf := '\n' :: [], fail := false, eof := false, bad := false } [] =
      .value [Val.str []] { buf := [], fail := false, eof := false, bad := false }
        ([] ++ [Ev.prompt "p"])) :=
  ⟨rfl, single_string_empty_line_success trueCond [] "p" "c" "e" 0 [] rfl⟩

/-- C8: a bad (fatal, non-end-of-input) stream state makes the attempt write
the fixed diagnostic to the error channel, clear the stream's error state and
retry: the attempt is rejected, nothing is returned and the loop continues
with the cleared stream. -/
theorem bad_stream_diagnostic_and_retry
    (tys : List Ty) (input : List Char) (fail0 : Bool)
    (msg cond2 perr : String) (cond : Val → Bool) (fuel : Nat) (tr : List Ev) :
    ask_for_impl msg cond cond2 perr tys { buf := input, fail := fail0, eof := false, bad := true } =
      .done false { buf := input, fail := false, eof := false, bad := false }
        (tys.map defaultVal) [Ev.prompt msg, Ev.badDiag] ∧
    ask_for msg cond cond2 perr tys (fuel + 1)
        { buf := input, fail := fail0, eof := false, bad := true } tr =
      ask_for msg cond cond2 perr tys fuel
        { buf := input, fail := false, eof := false, bad := false }
        (tr ++ [Ev.prompt msg, Ev.badDiag]) ∧
    evChannelErr Ev.badDiag = true ∧ evText Ev.badDiag = "Cannot read from stream\n" := by
  have h1 : ask_for_impl msg cond cond2 perr tys
      { buf := input, fail := fail0, eof := false, bad := true } =
      .done false { buf := input, fail := false, eof := false, bad := false }
        (tys.map defaultVal) [Ev.prompt msg, Ev.badDiag] := by
    simp [ask_for_impl, get_line_fill, getlineFn, good, clearIos]
  refine ⟨h1, ?_, rfl, rfl⟩
  simp [ask_for, h1]

/-- Helper: skipping whitespace over an all-whitespace line leaves nothing. -/
theorem dropWs_all_ws (l : List Char) (h : ∀ c ∈ l, isWs c = true) : dropWs l = [] := by
  simp only [dropWs, List.dropWhile_eq_nil_iff]
  exact h

/-- C10: a non-empty line of only whitespace characters does not take the
empty-line success path (that needs the line to be exactly empty); string
extraction finds no token, the sentry sets failbit, and the attempt is a parse
failure: the parse-error message is printed and the attempt rejected. -/
theorem whitespace_only_line_parse_failure
    (l rest : List Char) (msg cond2 perr : String) (cond : Val → Bool)
    (h1 : l ≠ []) (h2 : ∀ c ∈ l, isWs c = true) (h3 : '\n' ∉ l) :
    ask_for_impl msg cond cond2 perr [Ty.str]
        { buf := l ++ '\n' :: rest, fail := false, eof := false, bad := false } =
      .done false { buf := rest, fail := false, eof := false, bad := false }
        [Val.str []] [Ev.prompt msg, Ev.parseMsg perr] := by
  have hdrop : dropWs l = [] := dropWs_all_ws l h2
  have hsen : sentry { buf := l, fail := false, eof := false, bad := false } =
      ({ buf := [], fail := true, eof := true, bad := false }, false) := by
    simp [sentry, good, hdrop]
  simp [ask_for_impl, get_line_fill, getlineFn_good l rest h3, good, h1,
    extractSlots, extractSlot, extractString, hsen, clearIos]

/-- C10 witness: the one-space line yields the parse-error path. -/
theorem whitespace_only_line_parse_failure_witness :
    ([' '] : List Char) ≠ [] ∧ (∀ c ∈ ([' '] : List Char), isWs c = true) ∧
    ask_for_impl "p" trueCond "c" "e" [Ty.str]
        { buf := [' '] ++ '\n' :: [], fail := false, eof := false, bad := false } =
      .done false { buf := [], fail := false, eof := false, bad := false }
        [Val.str []] [Ev.prompt "p", Ev.parseMsg "e"] :=
  ⟨by decide, by decide,
    whitespace_only_line_parse_failure [' '] [] "p" "c" "e" trueCond
      (by decide) (by decide) (by decide)⟩

/-- Helper: a non-empty token list needs a non-whitespace character. -/
theorem tokensAux_ne_nil_dropWs (fuel : Nat) (cs : List Char)
    (h : tokensAux fuel cs ≠ []) : dropWs cs ≠ [] := by
  cases fuel with
  | zero => simp [tokensAux] at h
  | succ n =>
    intro hd
    rw [tokensAux, hd] at h
    exact h rfl

/-- C9: with a single string slot, a line holding two or more
whitespace-delimited tokens fills the slot with just the first token, leaves
the rest of the line unconsumed and is rejected through the excess-input path,
so a multi-word line is never returned as a single string value. -/
theorem multiword_line_rejected_as_excess
    (l rest : List Char) (msg cond2 perr : String) (cond : Val → Bool)
    (h3 : '\n' ∉ l) (htok : 2 ≤ (tokens l).length) :
    ask_for_impl msg cond cond2 perr [Ty.str]
        { buf := l ++ '\n' :: rest, fail := false, eof := false, bad := false } =
      .done false { buf := rest, fail := false, eof := false, bad := false }
        [Val.str ((dropWs l).takeWhile (fun c => !isWs c))]
        [Ev.prompt msg, Ev.excess] := by
  have hne : l ≠ [] := by
    intro he
    subst he
    simp [tokens, tokensAux, dropWs] at htok
  rcases hdw : dropWs l with _ | ⟨c, cs⟩
  · exfalso
    rw [tokens, tokensAux, hdw] at htok
    simp at htok
  · have htl : tokens l = (c :: cs).takeWhile (fun x => !isWs x) ::
        tokensAux l.length ((c :: cs).dropWhile (fun x => !isWs x)) := by
      rw [tokens, tokensAux, hdw]
    have hrest2 : (c :: cs).dropWhile (fun x => !isWs x) ≠ [] := by
      have h1 : tokensAux l.length ((c :: cs).dropWhile (fun x => !isWs x)) ≠ [] := by
        rw [htl] at htok
        intro hz
        rw [hz] at htok
        simp at htok
      have h2 := tokensAux_ne_nil_dropWs _ _ h1
      intro hz
      rw [hz] at h2
      exact h2 rfl
    have hsen : sentry { buf := l, fail := false, eof := false, bad := false } =
        ({ buf := c :: cs, fail := false, eof := false, bad := false }, true) := by
      simp [sentry, good, hdw]
    have hie : ((c :: cs).dropWhile (fun x => !isWs x)).isEmpty = false := by
      rcases hz : (c :: cs).dropWhile (fun x => !isWs x) with _ | _
      · exact absurd hz hrest2
      · rfl
    have hex : extractString { buf := l, fail := false, eof := false, bad := false } =
        ({ buf := (c :: cs).dropWhile (fun x => !isWs x), fail := false, eof := false,
           bad := false }, (c :: cs).takeWhile (fun x => !isWs x)) := by
      simp [extractString, hsen, hie]
    simp [ask_for_impl, get_line_fill, getlineFn_good l rest h3, good, hne,
      extractSlots, extractSlot, hex, hrest2, clearIos, hdw]

/-- C9 witness: the two-token line `"a b"` is rejected as excess input with
the slot holding just `"a"`. -/
theorem multiword_line_rejected_as_excess_witness :
    2 ≤ (tokens ['a', ' ', 'b']).length ∧
    ask_for_impl "p" trueCond "c" "e" [Ty.str]
        { buf := ['a', ' ', 'b'] ++ '\n' :: [], fail := false, eof := false, bad := false } =
      .done false { buf := [], fail := false, eof := false, bad := false }
        [Val.str ((dropWs ['a', ' ', 'b']).takeWhile (fun c => !isWs c))]
        [Ev.prompt "p", Ev.excess] :=
  ⟨by decide,
    multiword_line_rejected_as_excess ['a', ' ', 'b'] [] "p" "c" "e" trueCond
      (by decide) (by decide)⟩

/-- C4 amended: the read aborts with the `Eof_exception` exactly when the line
acquisition reaches end-of-input before finding a line terminator — including
a non-empty final line with no terminator, whose text is then discarded; every
terminator-ended line, the last included, is acquired with its text (without
the terminator) and used for filling. -/
theorem eof_abort_iff_unterminated
    (tys : List Ty) (input l rest : List Char) :
    (get_line_fill tys { buf := input, fail := false, eof := false, bad := false } =
        .error () ↔ '\n' ∉ input) ∧
    ('\n' ∉ l → getlineFn { buf := l ++ '\n' :: rest, fail := false, eof := false, bad := false } =
        ({ buf := rest, fail := false, eof := false, bad := false }, l)) := by
  constructor
  · rw [← breakNewline_snd_none_iff]
    rcases hb : breakNewline input with ⟨lh, r⟩
    cases r with
    | none =>
      simp only [hb]
      rcases hl : lh with _ | ⟨c, cs⟩
      · simp [get_line_fill, getlineFn, good, hb, hl]
      · simp [get_line_fill, getlineFn, good, hb, hl]
    | some r0 =>
      have hgl : getlineFn { buf := input, fail := false, eof := false, bad := false } =
          ({ buf := r0, fail := false, eof := false, bad := false }, lh) := by
        simp [getlineFn, good, hb]
      have hne : get_line_fill tys { buf := input, fail := false, eof := false, bad := false } ≠
          .error () := by
        simp only [get_line_fill, hgl, good]
        split
        · simp_all
        · split
          · simp
          · split <;> simp
      simp [hb, hne]
  · intro h
    exact getlineFn_good l rest h

/-- C4 amended witness: the unterminated input `"5"` aborts; the terminated
line `"5\n"` is acquired as `"5"` with the stream left good. -/
theorem eof_abort_iff_unterminated_witness :
    get_line_fill [Ty.int] { buf := ['5'], fail := false, eof := false, bad := false } =
      .error () ∧
    getlineFn { buf := ['5'] ++ '\n' :: [], fail := false, eof := false, bad := false } =
      ({ buf := [], fail := false, eof := false, bad := false }, ['5']) :=
  ⟨(eof_abort_iff_unterminated [Ty.int] ['5'] ['5'] []).1.mpr (by decide),
   (eof_abort_iff_unterminated [Ty.int] ['5'] ['5'] []).2 (by decide)⟩

/-- Helper: a sentry on a non-good stream sets failbit and blocks extraction. -/
theorem sentry_not_good (s : Ios) (hg : good s = false) :
    sentry s = ({ s with fail := true }, false) := by
  simp [sentry, hg]

/-- Helper: a sentry that exhausts the buffer while skipping whitespace. -/
theorem sentry_ws_empty (s : Ios) (hg : good s = true) (hd : dropWs s.buf = []) :
    sentry s = ({ s with buf := [], eof := true, fail := true }, false) := by
  simp [sentry, hg, hd]

/-- Helper: a successful sentry leaves the buffer at its first token. -/
theorem sentry_token (s : Ios) (c : Char) (cs : List Char) (hg : good s = true)
    (hd : dropWs s.buf = c :: cs) :
    sentry s = ({ s with buf := c :: cs }, true) := by
  simp [sentry, hg, hd]

/-- Helper: a good stream has no eofbit. -/
theorem good_eof_false (s : Ios) (hg : good s = true) : s.eof = false := by
  revert hg
  simp [good]
  tauto

/-- Helper invariant: `int` extraction sets eofbit only with an exhausted
buffer, and never touches badbit. -/
theorem extractInt_inv (s : Ios) (h : s.eof = true → s.buf = []) :
    ((extractInt s).1.eof = true → (extractInt s).1.buf = []) ∧ (extractInt s).1.bad = s.bad := by
  cases hg : good s with
  | false =>
    rw [extractInt, sentry_not_good s hg]
    simpa using h
  | true =>
    have he : s.eof = false := good_eof_false s hg
    rcases hdw : dropWs s.buf with _ | ⟨c, cs⟩
    · rw [extractInt, sentry_ws_empty s hg hdw]
      simp
    · rw [extractInt, sentry_token s c cs hg hdw]
      simp [he]

/-- Helper invariant: string extraction sets eofbit only with an exhausted
buffer, and never touches badbit. -/
theorem extractString_inv (s : Ios) (h : s.eof = true → s.buf = []) :
    ((extractString s).1.eof = true → (extractString s).1.buf = []) ∧
    (extractString s).1.bad = s.bad := by
  cases hg : good s with
  | false =>
    rw [extractString, sentry_not_good s hg]
    simpa using h
  | true =>
    have he : s.eof = false := good_eof_false s hg
    rcases hdw : dropWs s.buf with _ | ⟨c, cs⟩
    · rw [extractString, sentry_ws_empty s hg hdw]
      simp
    · rw [extractString, sentry_token s c cs hg hdw]
      simp [he]

/-- Helper invariant: array extraction sets eofbit only with an exhausted
buffer, and never touches badbit. -/
theorem extractArray_inv (n : Nat) (s : Ios) (h : s.eof = true → s.buf = []) :
    ((extractArray n s).1.eof = true → (extractArray n s).1.buf = []) ∧
    (extractArray n s).1.bad = s.bad := by
  induction n generalizing s with
  | zero => exact ⟨h, rfl⟩
  | succ m ih =>
    have h1 := extractInt_inv s h
    have h2 := ih (extractInt s).1 h1.1
    rw [extractArray]
    exact ⟨h2.1, h2.2.trans h1.2⟩

/-- Helper invariant: the vector loop sets eofbit only with an exhausted
buffer, and never touches badbit. -/
theorem extractVectorAux_inv (fuel : Nat) (s : Ios) (acc : List Int)
    (h : s.eof = true → s.buf = []) :
    ((extractVectorAux fuel s acc).1.eof = true → (extractVectorAux fuel s acc).1.buf = []) ∧
    (extractVectorAux fuel s acc).1.bad = s.bad := by
  induction fuel generalizing s acc with
  | zero => exact ⟨h, rfl⟩
  | succ m ih =>
    have h1 := extractInt_inv s h
    rw [extractVectorAux]
    split
    · exact h1
    · have h2 := ih (extractInt s).1 ((extractInt s).2 :: acc) h1.1
      exact ⟨h2.1, h2.2.trans h1.2⟩

/-- Helper invariant: vector extraction sets eofbit only with an exhausted
buffer, and never touches badbit. -/
theorem extractVector_inv (s : Ios) (h : s.eof = true → s.buf = []) :
    ((extractVector s).1.eof = true → (extractVector s).1.buf = []) ∧
    (extractVector s).1.bad = s.bad := by
  have h1 := extractVectorAux_inv (s.buf.length + 1) s [] h
  rw [extractVector]
  split
  · exact ⟨h1.1, h1.2⟩
  · exact h1

/-- Helper invariant: one slot extraction sets eofbit only with an exhausted
buffer, and never touches badbit. -/
theorem extractSlot_inv (ty : Ty) (s : Ios) (h : s.eof = true → s.buf = []) :
    ((extractSlot ty s).1.eof = true → (extractSlot ty s).1.buf = []) ∧
    (extractSlot ty s).1.bad = s.bad := by
  cases ty with
  | int => exact extractInt_inv s h
  | str => exact extractString_inv s h
  | arr n => exact extractArray_inv n s h
  | vec => exact extractVector_inv s h

/-- Helper invariant: filling every slot sets eofbit only with an exhausted
buffer, and never touches badbit. -/
theorem extractSlots_inv (tys : List Ty) (s : Ios) (h : s.eof = true → s.buf = []) :
    ((extractSlots tys s).1.eof = true → (extractSlots tys s).1.buf = []) ∧
    (extractSlots tys s).1.bad = s.bad := by
  induction tys generalizing s with
  | nil => exact ⟨h, rfl⟩
  | cons ty tys ih =>
    have h1 := extractSlot_inv ty s h
    have h2 := ih (extractSlot ty s).1 h1.1
    rw [extractSlots]
    exact ⟨h2.1, h2.2.trans h1.2⟩

/-- C3 amended: for an attempt whose slots all parse (no failbit, and badbit
is never set by parsing), the excess-input message is printed and the attempt
rejected if and only if the fill left unconsumed characters on the line — of
any kind, whitespace included, since the check is the eofbit, not a
non-whitespace-token test. -/
theorem excess_iff_unconsumed_chars
    (tys : List Ty) (l rest : List Char) (msg cond2 perr : String) (cond : Val → Bool)
    (h3 : '\n' ∉ l) (hns : ¬(tys = [Ty.str] ∧ l = []))
    (hok : (extractSlots tys { buf := l, fail := false, eof := false, bad := false }).1.fail
      = false) :
    ((∃ c vals tr, ask_for_impl msg cond cond2 perr tys
          { buf := l ++ '\n' :: rest, fail := false, eof := false, bad := false } =
        .done false c vals tr ∧ Ev.excess ∈ tr) ↔
      (extractSlots tys { buf := l, fail := false, eof := false, bad := false }).1.buf ≠ []) := by
  have hinv := extractSlots_inv tys { buf := l, fail := false, eof := false, bad := false }
    (by intro hh; exact absurd hh (by simp))
  rcases hq : extractSlots tys { buf := l, fail := false, eof := false, bad := false }
    with ⟨s2, vals2⟩
  rw [hq] at hinv hok
  simp only at hinv hok ⊢
  by_cases hbuf : s2.buf = []
  · have hfill : get_line_fill tys
        { buf := l ++ '\n' :: rest, fail := false, eof := false, bad := false } =
        .ok ({ buf := rest, fail := false, eof := true, bad := false }, vals2) := by
      simp [get_line_fill, getlineFn_good l rest h3, good, hns, hq, hbuf, hok, hinv.2]
    have himpl : ask_for_impl msg cond cond2 perr tys
        { buf := l ++ '\n' :: rest, fail := false, eof := false, bad := false } =
        (if vals2.foldl (fun _ v => condition_errors v cond) true then
          .done false { buf := rest, fail := false, eof := false, bad := false } vals2
            [Ev.prompt msg, Ev.condMsg cond2]
        else
          .done true { buf := rest, fail := false, eof := false, bad := false } vals2
            [Ev.prompt msg]) := by
      simp [ask_for_impl, hfill, clearIos]
    simp only [hbuf, ne_eq, not_true_eq_false, iff_false]
    intro hex
    rcases hex with ⟨c, vals, tr, heq, hmem⟩
    rw [himpl] at heq
    split at heq
    · cases heq
      simp at hmem
    · cases heq
  · have heof : s2.eof = false := by
      cases he2 : s2.eof
      · rfl
      · exact absurd (hinv.1 he2) hbuf
    have hfill : get_line_fill tys
        { buf := l ++ '\n' :: rest, fail := false, eof := false, bad := false } =
        .ok ({ buf := rest, fail := false, eof := false, bad := false }, vals2) := by
      simp [get_line_fill, getlineFn_good l rest h3, good, hns, hq, hbuf, hok, hinv.2, heof]
    have himpl : ask_for_impl msg cond cond2 perr tys
        { buf := l ++ '\n' :: rest, fail := false, eof := false, bad := false } =
        .done false { buf := rest, fail := false, eof := false, bad := false } vals2
          [Ev.prompt msg, Ev.excess] := by
      simp [ask_for_impl, hfill, clearIos]
    simp only [hbuf, ne_eq, not_false_eq_true, iff_true]
    exact ⟨_, _, _, himpl, by simp⟩

/-- C3 amended witness: the line `"5 "` with one `int` slot leaves the space
unconsumed and the excess-input message is printed. -/
theorem excess_iff_unconsumed_chars_witness :
    ∃ c vals tr, ask_for_impl "p" trueCond "c" "e" [Ty.int]
        { buf := ['5', ' '] ++ '\n' :: [], fail := false, eof := false, bad := false } =
      .done false c vals tr ∧ Ev.excess ∈ tr :=
  (excess_iff_unconsumed_chars [Ty.int] ['5', ' '] [] "p" "c" "e" trueCond
    (by decide) (by decide) (by decide)).mpr (by decide)

/-- Helper: a digit is not whitespace. -/
theorem isDigit_not_ws (c : Char) (h : c.isDigit = true) : isWs c = false := by
  cases hw : isWs c
  · rfl
  · exfalso
    rcases (by simpa [isWs] using hw : ((c = ' ' ∨ c = '\t') ∨ c = '\n') ∨ c = '\r') with
      ((h1 | h1) | h1) | h1 <;> (subst h1; exact absurd h (by decide))

/-- Helper: `takeWhile` passes over a prefix it wholly accepts. -/
theorem takeWhile_append_of_all (p : Char → Bool) (xs ys : List Char)
    (h : ∀ x ∈ xs, p x = true) :
    (xs ++ ys).takeWhile p = xs ++ ys.takeWhile p := by
  induction xs with
  | nil => simp
  | cons x xs ih =>
    simp only [List.mem_cons, forall_eq_or_imp] at h
    simp [List.takeWhile_cons, h.1, ih h.2]

/-- Helper: `dropWhile` swallows a prefix it wholly accepts. -/
theorem dropWhile_append_of_all (p : Char → Bool) (xs ys : List Char)
    (h : ∀ x ∈ xs, p x = true) :
    (xs ++ ys).dropWhile p = ys.dropWhile p := by
  induction xs with
  | nil => simp
  | cons x xs ih =>
    simp only [List.mem_cons, forall_eq_or_imp] at h
    simp [List.dropWhile_cons, h.1, ih h.2]

/-- Helper: unfolding a token join one token at a time. -/
theorem joinToks_cons (t : List Char) (ts : List (List Char)) :
    joinToks (t :: ts) = t ++ sepJoin ts := by
  cases ts with
  | nil => simp [joinToks, sepJoin]
  | cons u us => simp [joinToks, sepJoin]

/-- Helper: `int` extraction on a line of space-separated tokens consumes the
first token and its leading whitespace, succeeds with its value, and sets
eofbit exactly when no tokens remain. -/
theorem extractInt_token (pre t : List Char) (ts : List (List Char))
    (hpre : ∀ c ∈ pre, isWs c = true) (ht : intToken t) :
    extractInt { buf := pre ++ joinToks (t :: ts), fail := false, eof := false, bad := false } =
      ({ buf := sepJoin ts, fail := false, eof := ts.isEmpty, bad := false },
        (digitsToNat t : Int)) := by
  rcases ht with ⟨htne, htd⟩
  rcases hT : t with _ | ⟨d, t2⟩
  · exact absurd hT htne
  subst hT
  have hd : d.isDigit = true := htd d (by simp)
  have hbufeq : (d :: t2) ++ sepJoin ts = d :: (t2 ++ sepJoin ts) := by simp
  have hdw : dropWs (pre ++ joinToks ((d :: t2) :: ts)) = d :: (t2 ++ sepJoin ts) := by
    rw [joinToks_cons, dropWs, dropWhile_append_of_all isWs pre _ hpre, hbufeq,
      List.dropWhile_cons]
    simp [isDigit_not_ws d hd]
  have hsen : sentry { buf := pre ++ joinToks ((d :: t2) :: ts), fail := false, eof := false, bad := false } = ({ buf := d :: (t2 ++ sepJoin ts), fail := false, eof := false, bad := false }, true) :=
    sentry_token _ _ _ (by simp [good]) hdw
  have hdm : ¬ (d = '-') := fun hh => by subst hh; exact absurd hd (by decide)
  have hdp : ¬ (d = '+') := fun hh => by subst hh; exact absurd hd (by decide)
  have hst : (sepJoin ts).takeWhile Char.isDigit = [] := by
    cases ts <;> simp [sepJoin, List.takeWhile_cons]
  have hsd : (sepJoin ts).dropWhile Char.isDigit = sepJoin ts := by
    cases ts <;> simp [sepJoin, List.dropWhile_cons]
  have hse : (sepJoin ts).isEmpty = ts.isEmpty := by
    cases ts <;> simp [sepJoin]
  have htake : (d :: (t2 ++ sepJoin ts)).takeWhile Char.isDigit = d :: t2 := by
    rw [← hbufeq, takeWhile_append_of_all Char.isDigit (d :: t2) (sepJoin ts) htd, hst,
      List.append_nil]
  have hdrop : (d :: (t2 ++ sepJoin ts)).dropWhile Char.isDigit = sepJoin ts := by
    rw [← hbufeq, dropWhile_append_of_all Char.isDigit (d :: t2) (sepJoin ts) htd, hsd]
  rw [extractInt, hsen]
  simp [htake, hdrop, hse, hdm, hdp]

/-- Helper: once failbit is set, further extraction is a no-op (the sentry
blocks it). -/
theorem extractInt_fail_noop (s : Ios) (h : s.fail = true) : extractInt s = (s, 0) := by
  have hg : good s = false := by simp [good, h]
  rw [extractInt, sentry_not_good s hg]
  cases s
  simp_all

/-- Helper: array extraction on a failed stream leaves it unchanged. -/
theorem extractArray_fail (n : Nat) (s : Ios) (h : s.fail = true) :
    extractArray n s = (s, List.replicate n 0) := by
  induction n with
  | zero => rfl
  | succ m ih =>
    rw [extractArray, extractInt_fail_noop s h, ih]
    rfl

/-- Helper: extracting from a whitespace-only buffer exhausts it and sets
failbit and eofbit. -/
theorem extractInt_ws_exhausted (pre : List Char) (hpre : ∀ c ∈ pre, isWs c = true) :
    extractInt { buf := pre, fail := false, eof := false, bad := false } =
      ({ buf := [], fail := true, eof := true, bad := false }, 0) := by
  rw [extractInt, sentry_ws_empty _ (by simp [good]) (dropWs_all_ws pre hpre)]
  rfl

/-- Helper: extracting at end of buffer adds failbit through the sentry. -/
theorem extractInt_eof_noop :
    extractInt { buf := [], fail := false, eof := true, bad := false } =
      ({ buf := [], fail := true, eof := true, bad := false }, 0) := by
  rw [extractInt, sentry_not_good _ (by simp [good])]
  rfl

/-- Helper: array extraction over a line with fewer `int` tokens than
positions ends with failbit set and the buffer exhausted — the tokens run out
and the remaining extractions fail. -/
theorem extractArray_insufficient (ts : List (List Char)) :
    ∀ (n : Nat) (pre : List Char), (∀ c ∈ pre, isWs c = true) →
    (∀ u ∈ ts, intToken u) → ts.length < n →
    (extractArray n { buf := pre ++ joinToks ts, fail := false, eof := false, bad := false }).1 =
      { buf := [], fail := true, eof := true, bad := false } := by
  induction ts with
  | nil =>
    intro n pre hpre _ hlt
    cases n with
    | zero => exact absurd hlt (by simp)
    | succ m =>
      rw [extractArray]
      simp only [joinToks, List.append_nil, extractInt_ws_exhausted pre hpre]
      rw [extractArray_fail m _ rfl]
  | cons t ts2 ih =>
    intro n pre hpre htok hlt
    cases n with
    | zero => exact absurd hlt (by simp)
    | succ m =>
      rw [extractArray]
      simp only [extractInt_token pre t ts2 hpre (htok t (by simp))]
      cases ts2 with
      | nil =>
        simp only [List.isEmpty_nil, sepJoin]
        have hm : 0 < m := by simpa using hlt
        cases m with
        | zero => exact absurd hm (by simp)
        | succ k =>
          rw [extractArray]
          simp only [extractInt_eof_noop]
          rw [extractArray_fail k _ rfl]
      | cons u us =>
        simp only [List.isEmpty_cons, sepJoin]
        have := ih m [' '] (by simp [isWs]) (fun v hv => htok v (by simp [hv]))
          (by simpa using hlt)
        simpa [sepJoin] using this

/-- Helper: characters of a token join are separators or token characters. -/
theorem mem_joinToks (ts : List (List Char)) (c : Char) (h : c ∈ joinToks ts) :
    c = ' ' ∨ ∃ u ∈ ts, c ∈ u := by
  induction ts with
  | nil => simp [joinToks] at h
  | cons t ts2 ih =>
    cases ts2 with
    | nil =>
      simp only [joinToks] at h
      exact Or.inr ⟨t, by simp, h⟩
    | cons u us =>
      have hj : joinToks (t :: u :: us) = t ++ ' ' :: joinToks (u :: us) := by
        rw [joinToks_cons]
        rfl
      rw [hj, List.mem_append, List.mem_cons] at h
      rcases h with h | h | h
      · exact Or.inr ⟨t, by simp, h⟩
      · exact Or.inl h
      · rcases ih h with h2 | ⟨v, hv, hcv⟩
        · exact Or.inl h2
        · exact Or.inr ⟨v, by simp [List.mem_cons]; right; simpa using hv, hcv⟩

/-- Helper: a join of digit tokens contains no newline. -/
theorem newline_not_mem_joinToks (ts : List (List Char)) (htok : ∀ u ∈ ts, intToken u) :
    '\n' ∉ joinToks ts := by
  intro h
  rcases mem_joinToks ts '\n' h with h1 | ⟨u, hu, hcu⟩
  · exact absurd h1 (by decide)
  · exact absurd ((htok u hu).2 '\n' hcu) (by decide)

/-- C7: a fixed-size `int` sequence slot of arity `n` given a line with fewer
than `n` tokens of the element type is a parse failure: the parse-error
message is printed, the attempt is rejected (nothing is returned from it) and
no default-filled success occurs. -/
theorem fixed_array_insufficient_tokens
    (ts : List (List Char)) (n : Nat) (rest : List Char)
    (msg cond2 perr : String) (cond : Val → Bool)
    (htok : ∀ u ∈ ts, intToken u) (hlt : ts.length < n) :
    ∃ vals, ask_for_impl msg cond cond2 perr [Ty.arr n]
        { buf := joinToks ts ++ '\n' :: rest, fail := false, eof := false, bad := false } =
      .done false { buf := rest, fail := false, eof := false, bad := false } vals
        [Ev.prompt msg, Ev.parseMsg perr] := by
  have hnl : '\n' ∉ joinToks ts := newline_not_mem_joinToks ts htok
  have harr := extractArray_insufficient ts n [] (by simp) htok hlt
  rw [List.nil_append] at harr
  refine ⟨[Val.arr (extractArray n { buf := joinToks ts, fail := false, eof := false, bad := false }).2], ?_⟩
  have hslots : extractSlots [Ty.arr n] { buf := joinToks ts, fail := false, eof := false, bad := false } = ({ buf := [], fail := true, eof := true, bad := false }, [Val.arr (extractArray n { buf := joinToks ts, fail := false, eof := false, bad := false }).2]) := by
    simp [extractSlots, extractSlot, harr]
  simp [ask_for_impl, get_line_fill, getlineFn_good _ rest hnl, good, hslots, clearIos]

/-- C7 witness: arity 3 with the line `"1 2"` prints the parse-error message
and rejects the attempt. -/
theorem fixed_array_insufficient_tokens_witness :
    ∃ vals, ask_for_impl "p" trueCond "c" "e" [Ty.arr 3]
        { buf := joinToks [['1'], ['2']] ++ '\n' :: [], fail := false, eof := false, bad := false } =
      .done false { buf := [], fail := false, eof := false, bad := false } vals
        [Ev.prompt "p", Ev.parseMsg "e"] :=
  fixed_array_insufficient_tokens [['1'], ['2']] 3 [] "p" "c" "e" trueCond (by simp [intToken]) (by decide)

/-- Helper: filling produces exactly one value per slot. -/
theorem extractSlots_length (tys : List Ty) (s : Ios) :
    (extractSlots tys s).2.length = tys.length := by
  induction tys generalizing s with
  | nil => rfl
  | cons ty tys ih =>
    rw [extractSlots]
    simp [ih]

/-- Helper: a non-throwing `get_line_fill` returns one value per slot. -/
theorem get_line_fill_ok_length (tys : List Ty) (cin c : Ios) (vals : List Val)
    (h : get_line_fill tys cin = .ok (c, vals)) : vals.length = tys.length := by
  simp only [get_line_fill] at h
  split at h
  · cases h
  · split at h
    · cases h
      simp
    · split at h
      · cases h
        rename_i hcond
        simp [hcond.1]
      · cases h
        exact extractSlots_length _ _

/-- Helper: the reassigning fold of line 175 keeps only the last slot's
verdict. -/
theorem foldl_reassign_getLast (g : Val → Bool) (vs : List Val) (b : Bool) (w : Val)
    (h : vs.getLast? = some w) : vs.foldl (fun _ v => g v) b = g w := by
  induction vs generalizing b with
  | nil => cases h
  | cons v vs ih =>
    cases vs with
    | nil =>
      simp at h
      subst h
      rfl
    | cons v2 vs2 =>
      rw [List.getLast?_cons_cons] at h
      rw [List.foldl_cons]
      exact ih _ h

/-- Helper: an accepted attempt has a passing (re-assigned) condition check
and one value per slot. -/
theorem impl_accept_shape (msg cond2 perr : String) (cond : Val → Bool) (tys : List Ty)
    (cin c : Ios) (vals : List Val) (tr : List Ev)
    (h : ask_for_impl msg cond cond2 perr tys cin = .done true c vals tr) :
    vals.foldl (fun _ v => condition_errors v cond) true = false ∧
    vals.length = tys.length := by
  simp only [ask_for_impl] at h
  split at h
  · cases h
  · rename_i c0 vals0 hfill
    have hlen := get_line_fill_ok_length tys cin c0 vals0 hfill
    split at h
    · cases h
    · split at h
      · cases h
      · split at h
        · cases h
        · split at h
          · cases h
          · cases h
            rename_i herr
            exact ⟨Bool.of_not_eq_true herr, hlen⟩

/-- Helper: any value the retry loop returns came from an accepted attempt. -/
theorem ask_for_value_shape (msg cond2 perr : String) (cond : Val → Bool) (tys : List Ty) :
    ∀ (fuel : Nat) (cin : Ios) (tr : List Ev) (vals : List Val) (c2 : Ios) (tr2 : List Ev),
    ask_for msg cond cond2 perr tys fuel cin tr = .value vals c2 tr2 →
    vals.foldl (fun _ v => condition_errors v cond) true = false ∧
    vals.length = tys.length := by
  intro fuel
  induction fuel with
  | zero =>
    intro cin tr vals c2 tr2 h
    cases h
  | succ m ih =>
    intro cin tr vals c2 tr2 h
    rw [ask_for] at h
    split at h
    · cases h
    · cases h
      rename_i himp
      exact impl_accept_shape msg cond2 perr cond tys cin _ _ _ himp
    · exact ih _ _ _ _ _ h

/-- C6 amended: the loop returns a value only through an accepted attempt —
one in which every slot parsed, the whole line was consumed and the condition
check passed, which by line 175 means the last slot's predicate verdict (not
every slot's); it has no retry bound: after any rejected attempt the loop
simply runs again on the cleared stream with no counter, and the only other
terminal outcome is the propagating end-of-input abort. -/
theorem loop_unbounded_retry_until_accept_or_abort
    (msg cond2 perr : String) (cond : Val → Bool) (tys : List Ty)
    (fuel : Nat) (cin : Ios) (tr : List Ev) :
    (∀ vals c2 tr2, ask_for msg cond cond2 perr tys fuel cin tr = .value vals c2 tr2 →
      vals.foldl (fun _ v => condition_errors v cond) true = false ∧
      (tys ≠ [] → ∃ w, vals.getLast? = some w ∧ cond w = true)) ∧
    (∀ c2 vals tr2, ask_for_impl msg cond cond2 perr tys cin = .done false c2 vals tr2 →
      ask_for msg cond cond2 perr tys (fuel + 1) cin tr =
        ask_for msg cond cond2 perr tys fuel c2 (tr ++ tr2)) ∧
    (∀ tr2, ask_for_impl msg cond cond2 perr tys cin = .thrown tr2 →
      ask_for msg cond cond2 perr tys (fuel + 1) cin tr = .thrown (tr ++ tr2)) := by
  refine ⟨?_, ?_, ?_⟩
  · intro vals c2 tr2 h
    have hs := ask_for_value_shape msg cond2 perr cond tys fuel cin tr vals c2 tr2 h
    refine ⟨hs.1, ?_⟩
    intro hne
    have hvne : vals ≠ [] := by
      intro hv
      rw [hv] at hs
      exact hne (List.length_eq_zero.mp hs.2.symm)
    rcases hw : vals.getLast? with _ | w
    · exact absurd (List.getLast?_eq_none_iff.mp hw) hvne
    · refine ⟨w, rfl, ?_⟩
      have := foldl_reassign_getLast (fun v => condition_errors v cond) vals true w hw
      rw [this] at hs
      have h1 := hs.1
      simp only [condition_errors] at h1
      cases hcw : cond w
      · rw [hcw] at h1
        simp at h1
      · rfl
  · intro c2 vals tr2 h
    rw [ask_for, h]
  · intro tr2 h
    rw [ask_for, h]

/-- C6 counterexample: the loop returns the value `(-5, 3)` under a
positivity predicate even though the first slot fails it, so a return can
happen without every slot validating. -/
theorem loop_returns_value_with_failed_slot :
    ask_for "p" positiveCond "c" "e" [Ty.int, Ty.int] 1 (mkIos "-5 3\n") [] =
      .value [Val.int (-5), Val.int 3] { buf := [], fail := false, eof := false, bad := false }
        [Ev.prompt "p"] ∧
    positiveCond (Val.int (-5)) = false := ⟨rfl, rfl⟩

/-- C6 witness: the three conjuncts at concrete inputs — a value returned on
the line `\"5\"`, a retry after the unparseable line `\"x\"`, and the abort on
empty input. -/
theorem loop_unbounded_retry_witness :
    ([Val.int 5].foldl (fun _ v => condition_errors v trueCond) true = false ∧
      (([Ty.int] : List Ty) ≠ [] → ∃ w, [Val.int 5].getLast? = some w ∧ trueCond w = true)) ∧
    ask_for "p" trueCond "c" "e" [Ty.int] 2 (mkIos "x\n5\n") [] =
      ask_for "p" trueCond "c" "e" [Ty.int] 1
        { buf := "5\n".toList, fail := false, eof := false, bad := false }
        ([] ++ [Ev.prompt "p", Ev.parseMsg "e"]) ∧
    ask_for "p" trueCond "c" "e" [Ty.int] 1 (mkIos "") [] = .thrown ([] ++ [Ev.prompt "p"]) :=
  ⟨(loop_unbounded_retry_until_accept_or_abort "p" "c" "e" trueCond [Ty.int] 1
      (mkIos "5\n") []).1 [Val.int 5]
      { buf := [], fail := false, eof := false, bad := false } [Ev.prompt "p"] rfl,
   (loop_unbounded_retry_until_accept_or_abort "p" "c" "e" trueCond [Ty.int] 1
      (mkIos "x\n5\n") []).2.1
      { buf := "5\n".toList, fail := false, eof := false, bad := false }
      [Val.int 0] [Ev.prompt "p", Ev.parseMsg "e"] rfl,
   (loop_unbounded_retry_until_accept_or_abort "p" "c" "e" trueCond [Ty.int] 0
      (mkIos "") []).2.2 [Ev.prompt "p"] rfl⟩
